import Mathlib

/-!
Verification of the ycceRAG incremental ingestion pipeline.

Shallow embedding of the repository's Python sources:
  * `processor/deduplicator.py`   — content hashing and change detection
  * `database/supabase_client.py` — prior-state read, per-URL delete, batch insert
  * `main.py`                     — the sync coordinator (`run_pipeline`)
  * `crawler/spider.py`           — sitemap and BFS discovery
  * `processor/embedder.py`       — retrying embedding call

Python dicts are embedded as association lists with unique keys, Python
sets as `Finset String`, and effects (the Supabase table, HTTP fetches,
sleeps) as explicit state threaded through the definitions.
-/

namespace YcceRAG

/-! ## Python dict `url -> set of hashes`, as an association list

`dictInsertAdd d k h` models `d.setdefault(k, set()).add(h)`: it adds `h`
to the set stored at key `k`, creating the entry if absent (new keys are
appended, matching dict insertion order). -/

abbrev HashDict := List (String × Finset String)

def dictFind (d : HashDict) (k : String) : Option (Finset String) :=
  (d.find? (fun p => p.1 = k)).map (fun p => p.2)

def dictInsertAdd (d : HashDict) (k h : String) : HashDict :=
  match d with
  | [] => [(k, {h})]
  | (k', s) :: rest =>
      if k' = k then (k', insert h s) :: rest else (k', s) :: dictInsertAdd rest k h

/-- Build the dict from a list of `(key, value)` pairs, in order: the common
loop shape `for x in xs: d.setdefault(key(x), set()).add(val(x))`. -/
def groupPairs (ps : List (String × String)) : HashDict :=
  ps.foldl (fun d p => dictInsertAdd d p.1 p.2) []

def dictKeys (d : HashDict) : List String := d.map (fun p => p.1)

/-- The set of second components of pairs whose key is `k` — the
reference ("as a set") reading of grouping. -/
def pairsSet (ps : List (String × String)) (k : String) : Finset String :=
  ((ps.filter (fun p => p.1 = k)).map (fun p => p.2)).toFinset

/-! ## `processor/deduplicator.py` -/

/-- A chunk dict as produced by `chunker.chunk_document` and then decorated by
`compute_hashes_for_chunks` (fields `url, title, type, chunk_index, content,
content_hash`).  `kind` stands for the Python key `"type"`. -/
structure HChunk where
  url : String
  title : String
  kind : String
  chunk_index : Nat
  content : String
  content_hash : String
deriving DecidableEq, Repr

/-- The per-URL grouping loop at the top of `find_changed_urls`:
`new_by_url.setdefault(url, set()).add(chunk["content_hash"])`. -/
def groupByUrl (new_chunks : List HChunk) : HashDict :=
  groupPairs (new_chunks.map (fun c => (c.url, c.content_hash)))

/-- `deduplicator.find_changed_urls`: for each URL of the fresh grouping,
compare its fresh fingerprint set with `existing_hashes.get(url, set())`;
collect the URLs where the two differ. -/
def find_changed_urls (new_chunks : List HChunk) (existing_hashes : HashDict) :
    Finset String :=
  (groupByUrl new_chunks).foldl
    (fun changed p =>
      if p.2 ≠ (dictFind existing_hashes p.1).getD ∅ then insert p.1 changed
      else changed)
    ∅

/-- The fresh fingerprint set of URL `u`: hashes of the chunks carrying `u`,
as a set (the specification-level reading that `groupByUrl` computes). -/
def freshSet (chunks : List HChunk) (u : String) : Finset String :=
  ((chunks.filter (fun c => c.url = u)).map (fun c => c.content_hash)).toFinset

/-! ### Dict lemmas -/

lemma dictFind_insertAdd (d : HashDict) (k h u : String) :
    dictFind (dictInsertAdd d k h) u =
      if u = k then some (insert h ((dictFind d u).getD ∅)) else dictFind d u := by
  induction d with
  | nil =>
      by_cases hu : u = k
      · subst hu
        simp [dictInsertAdd, dictFind, List.find?]
      · simp [dictInsertAdd, dictFind, List.find?, hu, Ne.symm hu]
  | cons p rest ih =>
      obtain ⟨k', s⟩ := p
      by_cases hk : k' = k
      · subst hk
        by_cases hu : u = k'
        · subst hu
          simp [dictInsertAdd, dictFind, List.find?]
        · simp [dictInsertAdd, dictFind, List.find?, hu, Ne.symm hu]
      · by_cases hu : u = k'
        · subst hu
          simp [dictInsertAdd, hk, dictFind, List.find?]
        · simp only [dictInsertAdd, hk, if_false]
          simpa [dictFind, List.find?, hu, Ne.symm hu] using ih

lemma dictKeys_insertAdd (d : HashDict) (k h : String) :
    dictKeys (dictInsertAdd d k h) =
      if k ∈ dictKeys d then dictKeys d else dictKeys d ++ [k] := by
  induction d with
  | nil => simp [dictInsertAdd, dictKeys]
  | cons p rest ih =>
      obtain ⟨k', s⟩ := p
      by_cases hk : k' = k
      · subst hk
        simp [dictInsertAdd, dictKeys]
      · rw [show dictInsertAdd ((k', s) :: rest) k h = (k', s) :: dictInsertAdd rest k h by
            simp [dictInsertAdd, hk]]
        rw [show dictKeys ((k', s) :: dictInsertAdd rest k h)
              = k' :: dictKeys (dictInsertAdd rest k h) from rfl]
        rw [show dictKeys ((k', s) :: rest) = k' :: dictKeys rest from rfl, ih]
        by_cases hmem : k ∈ dictKeys rest
        · simp [hmem, Ne.symm hk]
        · simp [hmem, Ne.symm hk]

lemma dictKeys_nodup_insertAdd (d : HashDict) (k h : String)
    (hd : (dictKeys d).Nodup) : (dictKeys (dictInsertAdd d k h)).Nodup := by
  rw [dictKeys_insertAdd]
  by_cases hmem : k ∈ dictKeys d
  · simpa [hmem]
  · simpa [hmem, List.nodup_append] using hd

lemma dictFind_none_iff (d : HashDict) (u : String) :
    dictFind d u = none ↔ u ∉ dictKeys d := by
  induction d with
  | nil => simp [dictFind, dictKeys]
  | cons p rest ih =>
      obtain ⟨k, s⟩ := p
      by_cases hu : k = u
      · subst hu
        simp [dictFind, List.find?, dictKeys]
      · simpa [dictFind, List.find?, hu, dictKeys, Ne.symm hu] using ih

lemma mem_of_dictFind_eq_some (d : HashDict) (u : String) (s : Finset String)
    (h : dictFind d u = some s) : (u, s) ∈ d := by
  induction d with
  | nil => simp [dictFind] at h
  | cons p rest ih =>
      obtain ⟨k, t⟩ := p
      by_cases hu : k = u
      · subst hu
        simp [dictFind, List.find?] at h
        simp [h]
      · simp [dictFind, List.find?, hu] at h
        obtain ⟨a, ha⟩ := h
        exact List.mem_cons_of_mem _ (ih (by simp [dictFind, ha]))

lemma dictFind_eq_some_of_mem (d : HashDict) (u : String) (s : Finset String)
    (hd : (dictKeys d).Nodup) (h : (u, s) ∈ d) : dictFind d u = some s := by
  induction d with
  | nil => simp at h
  | cons p rest ih =>
      obtain ⟨k, t⟩ := p
      rcases List.mem_cons.mp h with heq | hmem
      · cases heq
        simp [dictFind, List.find?]
      · have hk : k ≠ u := by
          rintro rfl
          exact (List.nodup_cons.mp hd).1
            (by simpa [dictKeys] using List.mem_map_of_mem (fun p => p.1) hmem)
        simpa [dictFind, List.find?, hk] using ih (List.nodup_cons.mp hd).2 hmem

lemma groupPairs_foldl_find (ps : List (String × String)) (d : HashDict) (u : String) :
    dictFind (ps.foldl (fun d p => dictInsertAdd d p.1 p.2) d) u =
      if (dictFind d u).isSome ∨ u ∈ ps.map Prod.fst then
        some ((dictFind d u).getD ∅ ∪ pairsSet ps u)
      else none := by
  induction ps generalizing d with
  | nil =>
      cases hfind : dictFind d u <;> simp [pairsSet, hfind]
  | cons p ps ih =>
      obtain ⟨k, v⟩ := p
      have hstep : List.foldl (fun d p => dictInsertAdd d p.1 p.2) d ((k, v) :: ps)
          = List.foldl (fun d p => dictInsertAdd d p.1 p.2) (dictInsertAdd d k v) ps := rfl
      rw [hstep, ih]
      by_cases hu : u = k
      · subst hu
        cases hfind : dictFind d u <;>
          simp [dictFind_insertAdd, hfind, pairsSet, Finset.insert_union,
            ← Finset.insert_eq]
      · have hps : pairsSet ((k, v) :: ps) u = pairsSet ps u := by
          simp [pairsSet, List.filter_cons, hu, Ne.symm hu]
        rw [dictFind_insertAdd]
        simp only [hu, if_false, hps, List.map_cons]
        by_cases hmem : u ∈ ps.map Prod.fst
        · cases hfind : dictFind d u <;> simp [hfind, hmem, hu]
        · cases hfind : dictFind d u <;> simp [hfind, hmem, hu]

lemma groupPairs_find (ps : List (String × String)) (u : String) :
    dictFind (groupPairs ps) u =
      if u ∈ ps.map Prod.fst then some (pairsSet ps u) else none := by
  have h := groupPairs_foldl_find ps [] u
  have hnone : dictFind [] u = none := rfl
  by_cases hmem : u ∈ ps.map Prod.fst
  · rw [groupPairs, h, if_pos (Or.inr hmem), if_pos hmem, hnone]
    simp
  · rw [groupPairs, h, if_neg ?_, if_neg hmem]
    rintro (hs | hm)
    · rw [hnone] at hs
      simp at hs
    · exact hmem hm

lemma groupPairs_keys_nodup (ps : List (String × String)) :
    (dictKeys (groupPairs ps)).Nodup := by
  suffices h : ∀ d : HashDict, (dictKeys d).Nodup →
      (dictKeys (ps.foldl (fun d p => dictInsertAdd d p.1 p.2) d)).Nodup by
    exact h [] (by simp [dictKeys])
  induction ps with
  | nil => exact fun d hd => hd
  | cons p ps ih =>
      intro d hd
      exact ih (dictInsertAdd d p.1 p.2) (dictKeys_nodup_insertAdd d p.1 p.2 hd)

lemma mem_changed_foldl (entries existing : HashDict) (acc : Finset String) (u : String) :
    u ∈ entries.foldl
          (fun changed p =>
            if p.2 ≠ (dictFind existing p.1).getD ∅ then insert p.1 changed else changed)
          acc ↔
      u ∈ acc ∨ ∃ s, (u, s) ∈ entries ∧ s ≠ (dictFind existing u).getD ∅ := by
  induction entries generalizing acc with
  | nil => simp
  | cons p rest ih =>
      obtain ⟨k, s⟩ := p
      rw [List.foldl_cons]
      show u ∈ List.foldl _
          (if s ≠ (dictFind existing k).getD ∅ then insert k acc else acc) rest ↔ _
      rw [ih]
      by_cases hne : s = (dictFind existing k).getD ∅
      · rw [if_neg (not_not.mpr hne)]
        constructor
        · rintro (hacc | ⟨t, ht, hts⟩)
          · exact Or.inl hacc
          · exact Or.inr ⟨t, List.mem_cons_of_mem _ ht, hts⟩
        · rintro (hacc | ⟨t, ht, hts⟩)
          · exact Or.inl hacc
          · rcases List.mem_cons.mp ht with heq | hrest
            · cases heq
              exact absurd hne hts
            · exact Or.inr ⟨t, hrest, hts⟩
      · rw [if_pos hne]
        constructor
        · rintro (hmem | ⟨t, ht, hts⟩)
          · rcases Finset.mem_insert.mp hmem with rfl | hacc
            · exact Or.inr ⟨s, List.mem_cons_self _ _, hne⟩
            · exact Or.inl hacc
          · exact Or.inr ⟨t, List.mem_cons_of_mem _ ht, hts⟩
        · rintro (hacc | ⟨t, ht, hts⟩)
          · exact Or.inl (Finset.mem_insert_of_mem hacc)
          · rcases List.mem_cons.mp ht with heq | hrest
            · cases heq
              exact Or.inl (Finset.mem_insert_self _ _)
            · exact Or.inr ⟨t, hrest, hts⟩

lemma pairsSet_chunks (chunks : List HChunk) (u : String) :
    pairsSet (chunks.map (fun c => (c.url, c.content_hash))) u = freshSet chunks u := by
  simp only [pairsSet, freshSet, List.filter_map, List.map_map]
  congr 1

lemma urls_of_pairs (chunks : List HChunk) (u : String) :
    u ∈ (chunks.map (fun c => (c.url, c.content_hash))).map Prod.fst ↔
      u ∈ chunks.map (fun c => c.url) := by
  simp [List.map_map]

lemma mem_find_changed_urls (chunks : List HChunk) (prior : HashDict) (u : String) :
    u ∈ find_changed_urls chunks prior ↔
      (∃ c ∈ chunks, c.url = u) ∧ freshSet chunks u ≠ (dictFind prior u).getD ∅ := by
  unfold find_changed_urls
  rw [mem_changed_foldl]
  simp only [Finset.not_mem_empty, false_or]
  constructor
  · rintro ⟨s, hmem, hne⟩
    have hfind := dictFind_eq_some_of_mem _ _ _
      (by exact groupPairs_keys_nodup _) hmem
    rw [groupByUrl, groupPairs_find] at hfind
    by_cases hin : u ∈ (chunks.map (fun c => (c.url, c.content_hash))).map Prod.fst
    · rw [if_pos hin] at hfind
      have hs : s = pairsSet (chunks.map (fun c => (c.url, c.content_hash))) u :=
        (Option.some.inj hfind).symm
      refine ⟨?_, ?_⟩
      · have := (urls_of_pairs chunks u).mp hin
        simpa [List.mem_map] using this
      · rw [hs, pairsSet_chunks] at hne
        exact hne
    · rw [if_neg hin] at hfind
      simp at hfind
  · rintro ⟨⟨c, hc, rfl⟩, hne⟩
    refine ⟨freshSet chunks c.url, ?_, hne⟩
    have hin : c.url ∈ (chunks.map (fun c => (c.url, c.content_hash))).map Prod.fst := by
      rw [urls_of_pairs]
      exact List.mem_map_of_mem _ hc
    have hfind : dictFind (groupByUrl chunks) c.url
        = some (freshSet chunks c.url) := by
      rw [groupByUrl, groupPairs_find, if_pos hin, pairsSet_chunks]
    exact mem_of_dictFind_eq_some _ _ _ hfind

/-- **C1.** A URL is in the set returned by `find_changed_urls` iff it appears
among the fresh chunks and the set of fingerprints of its fresh chunks is not
equal, as a set (order-independent, duplicate-count-independent), to the prior
fingerprint set for it (the empty set when it is absent from the prior map). -/
theorem find_changed_urls_iff (chunks : List HChunk) (prior : HashDict) (u : String) :
    u ∈ find_changed_urls chunks prior ↔
      (∃ c ∈ chunks, c.url = u) ∧ freshSet chunks u ≠ (dictFind prior u).getD ∅ :=
  mem_find_changed_urls chunks prior u

/-! ## `main.py` coordinator state: new URLs and the processing set -/

def urlsOf (chunks : List HChunk) : Finset String :=
  (chunks.map (fun c => c.url)).toFinset

/-- `main.run_pipeline`: `new_urls = {c["url"] for c in all_chunks} - set(existing_hashes.keys())`. -/
def newUrls (chunks : List HChunk) (existing : HashDict) : Finset String :=
  urlsOf chunks \ (dictKeys existing).toFinset

lemma freshSet_nonempty (chunks : List HChunk) (c : HChunk) (hc : c ∈ chunks) :
    freshSet chunks c.url ≠ ∅ := by
  intro hempty
  have : c.content_hash ∈ freshSet chunks c.url := by
    simp only [freshSet, List.mem_toFinset, List.mem_map]
    exact ⟨c, List.mem_filter.mpr ⟨hc, by simp⟩, rfl⟩
  rw [hempty] at this
  exact absurd this (Finset.not_mem_empty _)

lemma new_url_mem_changed (chunks : List HChunk) (existing : HashDict) (u : String)
    (hu : ∃ c ∈ chunks, c.url = u) (habsent : u ∉ dictKeys existing) :
    u ∈ newUrls chunks existing ∧ u ∈ find_changed_urls chunks existing := by
  obtain ⟨c, hc, rfl⟩ := hu
  constructor
  · refine Finset.mem_sdiff.mpr ⟨?_, by simpa using habsent⟩
    simp only [urlsOf, List.mem_toFinset]
    exact List.mem_map_of_mem _ hc
  · refine (mem_find_changed_urls chunks existing c.url).mpr ⟨⟨c, hc, rfl⟩, ?_⟩
    have hnone : dictFind existing c.url = none := (dictFind_none_iff _ _).mpr habsent
    rw [hnone]
    simpa using freshSet_nonempty chunks c hc

/-- **C3, counterexample.** With an empty prior map, the fresh URL `B` *is*
classified "new" by the coordinator, yet it is also a member of the set
returned by `find_changed_urls` — refuting "never a member of the changed
set". -/
theorem new_url_in_changed_cex :
    "B" ∈ newUrls [⟨"B", "t", "page", 0, "body", "h1"⟩] [] ∧
    "B" ∈ find_changed_urls [⟨"B", "t", "page", 0, "body", "h1"⟩] [] := by
  constructor
  · decide
  · decide

/-- **C3, amended.** A fresh URL absent from the prior map is classified
"new" by the coordinator, and (having at least one fresh chunk) it is
*always also* a member of the "changed" set returned by `find_changed_urls`,
since its nonempty fresh fingerprint set differs from the empty prior set.
The processing set (union of the two) is unaffected. -/
theorem new_url_classified_new_and_changed (chunks : List HChunk) (existing : HashDict)
    (u : String) (hu : ∃ c ∈ chunks, c.url = u) (habsent : u ∉ dictKeys existing) :
    u ∈ newUrls chunks existing ∧ u ∈ find_changed_urls chunks existing :=
  new_url_mem_changed chunks existing u hu habsent

/-- Witness for `new_url_classified_new_and_changed` at a concrete input. -/
theorem new_url_classified_new_and_changed_witness :
    "B" ∈ newUrls [⟨"B", "t", "page", 0, "body", "h1"⟩] ([("A", {"h0"})] : HashDict) ∧
    "B" ∈ find_changed_urls [⟨"B", "t", "page", 0, "body", "h1"⟩]
      ([("A", {"h0"})] : HashDict) :=
  new_url_classified_new_and_changed [⟨"B", "t", "page", 0, "body", "h1"⟩]
    [("A", {"h0"})] "B" ⟨⟨"B", "t", "page", 0, "body", "h1"⟩, by decide, rfl⟩
    (by decide)

/-! ## `database/supabase_client.py` and the `main.run_pipeline` sync steps

A row of the `ycce_knowledge` table.  The `embedding` vector (floating-point,
produced by the external edge function) and the `metadata` object (`title`,
`type`, wall-clock `updated_at`) are carried opaquely by the real table and
play no role in any fingerprint comparison; they are elided from the row
model, which keeps the fields the pipeline reads back: `url`, `chunk_index`,
`content`, `content_hash`. -/

structure Record where
  url : String
  chunk_index : Nat
  content : String
  content_hash : String
deriving DecidableEq, Repr

/-- `supabase_client.get_existing_hashes`: one full scan of `(url,
content_hash)` rows, grouped into a dict `url -> set of hashes` by the same
`setdefault(...).add(...)` loop as in the deduplicator. -/
def get_existing_hashes (store : List Record) : HashDict :=
  groupPairs (store.map (fun r => (r.url, r.content_hash)))

/-- `supabase_client.delete_chunks_for_url`: `delete().eq("url", url)` —
every row whose `url` equals the argument is removed. -/
def delete_chunks_for_url (store : List Record) (url : String) : List Record :=
  store.filter (fun r => r.url ≠ url)

def toRecord (c : HChunk) : Record :=
  ⟨c.url, c.chunk_index, c.content, c.content_hash⟩

/-- `supabase_client.upsert_chunks`: rows are inserted in sub-batches of 100,
whose concatenation appends exactly the given chunks' rows to the table. -/
def upsert_chunks (store : List Record) (chunks : List HChunk) : List Record :=
  store ++ chunks.map toRecord

/-- The set of fingerprints persisted for `u` (the spec-level reading of what
`get_existing_hashes` reports for `u`). -/
def storedHashes (store : List Record) (u : String) : Finset String :=
  ((store.filter (fun r => r.url = u)).map (fun r => r.content_hash)).toFinset

/-- `main.run_pipeline`: `urls_to_process = changed_urls | new_urls`. -/
def urls_to_process (chunks : List HChunk) (store : List Record) : Finset String :=
  find_changed_urls chunks (get_existing_hashes store)
    ∪ newUrls chunks (get_existing_hashes store)

/-- `chunks_with_emb.sort(key=lambda x: x[0]["url"])`: a stable sort of the
upload list by owning URL (the per-URL `groupby` batches then insert the
sorted rows in order). -/
def sortChunksByUrl (chunks : List HChunk) : List HChunk :=
  chunks.insertionSort (fun a b => a.url ≤ b.url)

/-- The storage-visible effect of one `run_pipeline` execution, starting from
phase 4 of `main.py` (the chunks are already fingerprinted): read prior state,
detect changed and new URLs, stop if nothing to process, else delete every
changed URL's rows and append the uploaded chunks' rows.  `deletedUrls` and
`insertedRows` record the delete and insert operations issued. -/
structure SyncResult where
  store : List Record
  deletedUrls : List String
  insertedRows : List Record
deriving DecidableEq, Repr

def run_sync (chunks : List HChunk) (store : List Record) : SyncResult :=
  let existing := get_existing_hashes store
  let changed := find_changed_urls chunks existing
  let fresh_new := newUrls chunks existing
  let toProcess := changed ∪ fresh_new
  if toProcess = ∅ then ⟨store, [], []⟩
  else
    let uploads := chunks.filter (fun c => c.url ∈ toProcess)
    let changedList := changed.sort (· ≤ ·)
    let store1 := changedList.foldl delete_chunks_for_url store
    let rows := (sortChunksByUrl uploads).map toRecord
    ⟨store1 ++ rows, changedList, rows⟩

/-! ### Storage lemmas -/

lemma toFinset_eq_of_perm {α : Type} [DecidableEq α] {l l' : List α}
    (h : l.Perm l') : l.toFinset = l'.toFinset := by
  ext a
  simp [List.mem_toFinset, h.mem_iff]

lemma pairsSet_records (store : List Record) (u : String) :
    pairsSet (store.map (fun r => (r.url, r.content_hash))) u = storedHashes store u := by
  simp only [pairsSet, storedHashes, List.filter_map, List.map_map]
  congr 1

lemma urls_of_record_pairs (store : List Record) (u : String) :
    u ∈ (store.map (fun r => (r.url, r.content_hash))).map Prod.fst ↔
      u ∈ store.map (fun r => r.url) := by
  simp [List.map_map]

lemma get_existing_hashes_find (store : List Record) (u : String) :
    dictFind (get_existing_hashes store) u =
      if u ∈ store.map (fun r => r.url) then some (storedHashes store u) else none := by
  rw [get_existing_hashes, groupPairs_find]
  by_cases hmem : u ∈ store.map (fun r => r.url)
  · rw [if_pos ((urls_of_record_pairs store u).mpr hmem), if_pos hmem, pairsSet_records]
  · rw [if_neg (fun h => hmem ((urls_of_record_pairs store u).mp h)), if_neg hmem]

lemma storedHashes_of_absent (store : List Record) (u : String)
    (h : u ∉ store.map (fun r => r.url)) : storedHashes store u = ∅ := by
  have hnil : store.filter (fun r => r.url = u) = [] := by
    rw [List.filter_eq_nil_iff]
    intro r hr hru
    have hru' : r.url = u := of_decide_eq_true hru
    exact h (hru' ▸ List.mem_map_of_mem (fun r => r.url) hr)
  simp [storedHashes, hnil]

lemma mem_dictKeys_existing (store : List Record) (u : String) :
    u ∈ dictKeys (get_existing_hashes store) ↔ u ∈ store.map (fun r => r.url) := by
  rw [← not_iff_not, ← dictFind_none_iff, get_existing_hashes_find]
  by_cases hmem : u ∈ store.map (fun r => r.url)
  · simp [hmem]
  · simp [hmem]

lemma mem_delete_foldl (urls : List String) (store : List Record) (r : Record) :
    r ∈ urls.foldl delete_chunks_for_url store ↔ r ∈ store ∧ r.url ∉ urls := by
  induction urls generalizing store with
  | nil => simp
  | cons u rest ih =>
      rw [List.foldl_cons, ih]
      simp only [delete_chunks_for_url, List.mem_filter, decide_eq_true_eq, List.mem_cons]
      constructor
      · rintro ⟨⟨hmem, hne⟩, hrest⟩
        refine ⟨hmem, ?_⟩
        rintro (heq | hr)
        · exact hne heq
        · exact hrest hr
      · rintro ⟨hmem, hcons⟩
        exact ⟨⟨hmem, fun heq => hcons (Or.inl heq)⟩, fun hr => hcons (Or.inr hr)⟩

lemma newUrls_subset_changed (chunks : List HChunk) (store : List Record) :
    newUrls chunks (get_existing_hashes store)
      ⊆ find_changed_urls chunks (get_existing_hashes store) := by
  intro u hu
  obtain ⟨hurl, habsent⟩ := Finset.mem_sdiff.mp hu
  have habs : u ∉ dictKeys (get_existing_hashes store) := by simpa using habsent
  have hex : ∃ c ∈ chunks, c.url = u := by
    simpa [urlsOf, List.mem_map] using hurl
  exact (new_url_mem_changed chunks _ u hex habs).2

lemma urls_to_process_eq_changed (chunks : List HChunk) (store : List Record) :
    urls_to_process chunks store = find_changed_urls chunks (get_existing_hashes store) := by
  rw [urls_to_process, Finset.union_eq_left]
  exact newUrls_subset_changed chunks store

lemma filter_map_toRecord (l : List HChunk) (u : String) :
    (l.map toRecord).filter (fun r => r.url = u)
      = (l.filter (fun c => c.url = u)).map toRecord := by
  induction l with
  | nil => rfl
  | cons c l ih =>
      by_cases hc : c.url = u
      · simp [List.filter_cons, toRecord, hc, ih]
      · simp [List.filter_cons, toRecord, hc, ih]

lemma map_hash_toRecord (l : List HChunk) :
    (l.map toRecord).map (fun r => r.content_hash) = l.map (fun c => c.content_hash) := by
  rw [List.map_map]
  rfl

lemma filter_uploads (chunks : List HChunk) (S : Finset String) (u : String) (hu : u ∈ S) :
    (chunks.filter (fun c => c.url ∈ S)).filter (fun c => c.url = u)
      = chunks.filter (fun c => c.url = u) := by
  rw [List.filter_filter]
  apply List.filter_congr
  intro c _
  by_cases hc : c.url = u
  · simp [hc, hu]
  · simp [hc]

lemma run_sync_stored (chunks : List HChunk) (store : List Record) (u : String)
    (hu : u ∈ urls_to_process chunks store) :
    storedHashes (run_sync chunks store).store u = freshSet chunks u := by
  have hchanged : u ∈ find_changed_urls chunks (get_existing_hashes store) := by
    rwa [urls_to_process_eq_changed] at hu
  have huu : u ∈ find_changed_urls chunks (get_existing_hashes store)
      ∪ newUrls chunks (get_existing_hashes store) := Finset.mem_union_left _ hchanged
  have hcond : ¬(find_changed_urls chunks (get_existing_hashes store)
      ∪ newUrls chunks (get_existing_hashes store) = ∅) := by
    intro h0
    rw [h0] at huu
    exact absurd huu (Finset.not_mem_empty u)
  simp only [run_sync]
  rw [if_neg hcond]
  simp only [storedHashes, List.filter_append, List.map_append, List.toFinset_append]
  have h1 : (((find_changed_urls chunks (get_existing_hashes store)).sort (· ≤ ·)).foldl
      delete_chunks_for_url store).filter (fun r => r.url = u) = [] := by
    rw [List.filter_eq_nil_iff]
    intro r hr hru
    have hmem := (mem_delete_foldl _ _ _).mp hr
    have hru' : r.url = u := of_decide_eq_true hru
    exact hmem.2 (by
      rw [hru', Finset.mem_sort]
      exact hchanged)
  rw [h1]
  have h2 : ((((sortChunksByUrl
        (chunks.filter (fun c => c.url ∈ find_changed_urls chunks (get_existing_hashes store)
            ∪ newUrls chunks (get_existing_hashes store)))).map toRecord).filter
        (fun r => r.url = u)).map (fun r => r.content_hash)).toFinset
      = freshSet chunks u := by
    rw [filter_map_toRecord, map_hash_toRecord]
    have hperm : List.Perm
        (((sortChunksByUrl
          (chunks.filter (fun c => c.url ∈ find_changed_urls chunks (get_existing_hashes store)
              ∪ newUrls chunks (get_existing_hashes store)))).filter
          (fun c => c.url = u)).map (fun c => c.content_hash))
        (((chunks.filter (fun c => c.url ∈ find_changed_urls chunks (get_existing_hashes store)
              ∪ newUrls chunks (get_existing_hashes store))).filter
          (fun c => c.url = u)).map (fun c => c.content_hash)) :=
      ((List.perm_insertionSort _ _).filter _).map _
    rw [toFinset_eq_of_perm hperm, filter_uploads _ _ _ huu]
    rfl
  rw [h2]
  simp

/-- **C2.** After a successful run, for every URL in the processing set the
fingerprint set persisted in storage equals exactly the fresh fingerprint set
of that URL's chunk set — never a superset with stale leftovers and never a
mix — because every changed URL's prior rows are deleted before the new rows
are appended. -/
theorem run_pipeline_atomic_replacement (chunks : List HChunk) (store : List Record)
    (u : String) (hu : u ∈ urls_to_process chunks store) :
    storedHashes (run_sync chunks store).store u = freshSet chunks u :=
  run_sync_stored chunks store u hu

/-- Witness for `run_pipeline_atomic_replacement`: URL `A` changes from
fingerprint set `{h1}` to `{h2}`. -/
theorem run_pipeline_atomic_replacement_witness :
    "A" ∈ urls_to_process [⟨"A", "t", "page", 0, "new body", "h2"⟩]
        [⟨"A", 0, "old body", "h1"⟩] ∧
    storedHashes (run_sync [⟨"A", "t", "page", 0, "new body", "h2"⟩]
        [⟨"A", 0, "old body", "h1"⟩]).store "A"
      = freshSet [⟨"A", "t", "page", 0, "new body", "h2"⟩] "A" :=
  ⟨by decide,
   run_pipeline_atomic_replacement [⟨"A", "t", "page", 0, "new body", "h2"⟩]
     [⟨"A", 0, "old body", "h1"⟩] "A" (by decide)⟩

lemma changed_empty_of_unchanged (chunks : List HChunk) (store : List Record)
    (h : ∀ u ∈ urlsOf chunks, freshSet chunks u = storedHashes store u) :
    find_changed_urls chunks (get_existing_hashes store) = ∅ := by
  rw [Finset.eq_empty_iff_forall_not_mem]
  intro u hu
  obtain ⟨⟨c, hc, rfl⟩, hne⟩ := (mem_find_changed_urls _ _ _).mp hu
  have hurl : c.url ∈ urlsOf chunks := by
    simp only [urlsOf, List.mem_toFinset]
    exact List.mem_map_of_mem _ hc
  have heq := h c.url hurl
  by_cases hmem : c.url ∈ store.map (fun r => r.url)
  · rw [get_existing_hashes_find, if_pos hmem] at hne
    exact hne (by rw [heq]; rfl)
  · rw [get_existing_hashes_find, if_neg hmem] at hne
    rw [storedHashes_of_absent store _ hmem] at heq
    exact freshSet_nonempty chunks c hc heq

lemma newUrls_empty_of_unchanged (chunks : List HChunk) (store : List Record)
    (h : ∀ u ∈ urlsOf chunks, freshSet chunks u = storedHashes store u) :
    newUrls chunks (get_existing_hashes store) = ∅ := by
  rw [Finset.eq_empty_iff_forall_not_mem]
  intro u hu
  obtain ⟨hurl, habsent⟩ := Finset.mem_sdiff.mp hu
  have habsent' : u ∉ dictKeys (get_existing_hashes store) := by simpa using habsent
  have habs : u ∉ store.map (fun r => r.url) := fun hmem =>
    habsent' ((mem_dictKeys_existing store u).mpr hmem)
  obtain ⟨c, hc, rfl⟩ : ∃ c ∈ chunks, c.url = u := by
    simpa [urlsOf, List.mem_map] using hurl
  have heq := h c.url hurl
  rw [storedHashes_of_absent store _ habs] at heq
  exact freshSet_nonempty chunks c hc heq

/-- **C4.** If for every fresh URL the fresh fingerprint set equals the
persisted fingerprint set (no upstream content change since the previous
run), the run computes an empty processing set and performs zero delete and
zero insert operations, leaving the store untouched. -/
theorem second_run_noop (chunks : List HChunk) (store : List Record)
    (h : ∀ u ∈ urlsOf chunks, freshSet chunks u = storedHashes store u) :
    urls_to_process chunks store = ∅ ∧
    (run_sync chunks store).deletedUrls = [] ∧
    (run_sync chunks store).insertedRows = [] ∧
    (run_sync chunks store).store = store := by
  have hch := changed_empty_of_unchanged chunks store h
  have hnew := newUrls_empty_of_unchanged chunks store h
  have hproc : urls_to_process chunks store = ∅ := by
    rw [urls_to_process, hch, hnew, Finset.empty_union]
  have hrun : run_sync chunks store = ⟨store, [], []⟩ := by
    simp only [run_sync]
    rw [if_pos (by rw [hch, hnew, Finset.empty_union])]
  exact ⟨hproc, by rw [hrun], by rw [hrun], by rw [hrun]⟩

/-- Witness for `second_run_noop`: the store already holds exactly URL `A`'s
fresh fingerprints. -/
theorem second_run_noop_witness :
    (∀ u ∈ urlsOf [⟨"A", "t", "page", 0, "body", "h1"⟩],
        freshSet [⟨"A", "t", "page", 0, "body", "h1"⟩] u
          = storedHashes [⟨"A", 0, "body", "h1"⟩] u) ∧
    urls_to_process [⟨"A", "t", "page", 0, "body", "h1"⟩] [⟨"A", 0, "body", "h1"⟩] = ∅ ∧
    (run_sync [⟨"A", "t", "page", 0, "body", "h1"⟩] [⟨"A", 0, "body", "h1"⟩]).deletedUrls = [] ∧
    (run_sync [⟨"A", "t", "page", 0, "body", "h1"⟩] [⟨"A", 0, "body", "h1"⟩]).insertedRows = [] ∧
    (run_sync [⟨"A", "t", "page", 0, "body", "h1"⟩] [⟨"A", 0, "body", "h1"⟩]).store
      = [⟨"A", 0, "body", "h1"⟩] :=
  ⟨by decide,
   (second_run_noop [⟨"A", "t", "page", 0, "body", "h1"⟩] [⟨"A", 0, "body", "h1"⟩]
     (by decide)).1,
   (second_run_noop [⟨"A", "t", "page", 0, "body", "h1"⟩] [⟨"A", 0, "body", "h1"⟩]
     (by decide)).2.1,
   (second_run_noop [⟨"A", "t", "page", 0, "body", "h1"⟩] [⟨"A", 0, "body", "h1"⟩]
     (by decide)).2.2.1,
   (second_run_noop [⟨"A", "t", "page", 0, "body", "h1"⟩] [⟨"A", 0, "body", "h1"⟩]
     (by decide)).2.2.2⟩

/-! ## `crawler/spider.py`

String helpers mirror the Python expressions used by the spider.  URLs are
plain strings; `urlparse(url).netloc` is the text between the first `"://"`
and the next `/`, `?` or `#`. -/

def strLower (s : String) : String := String.mk (s.data.map Char.toLower)

/-- `a.startswith(b)` on character lists (kernel-reducible counterpart of
`String.startsWith`). -/
def listStartsWith : List Char → List Char → Bool
  | _, [] => true
  | [], _ :: _ => false
  | c :: l, p :: ps => c == p && listStartsWith l ps

def strStartsWith (s pre : String) : Bool := listStartsWith s.data pre.data

def strEndsWith (s suffix : String) : Bool :=
  listStartsWith s.data.reverse suffix.data.reverse

/-- Python `str.replace("www.", "")` — removes every non-overlapping
occurrence of `"www."` scanning left to right, not only a leading label. -/
def removeWWWAux : List Char → List Char
  | 'w' :: 'w' :: 'w' :: '.' :: rest => removeWWWAux rest
  | c :: rest => c :: removeWWWAux rest
  | [] => []

/-- `spider._get_base_domain`: `netloc.lower().replace("www.", "")`. -/
def getBaseDomain (netloc : String) : String :=
  String.mk (removeWWWAux (strLower netloc).data)

def afterScheme : List Char → Option (List Char)
  | ':' :: '/' :: '/' :: rest => some rest
  | _ :: rest => afterScheme rest
  | [] => none

/-- `urlparse(url).netloc`. -/
def netlocOf (url : String) : String :=
  match afterScheme url.data with
  | some rest => String.mk (rest.takeWhile (fun c => !(c == '/' || c == '?' || c == '#')))
  | none => ""

/-- `urlparse(url).path`. -/
def pathOf (url : String) : String :=
  match afterScheme url.data with
  | some rest =>
      String.mk ((rest.dropWhile (fun c => !(c == '/' || c == '?' || c == '#'))).takeWhile
        (fun c => !(c == '?' || c == '#')))
  | none => String.mk (url.data.takeWhile (fun c => !(c == '?' || c == '#')))

/-- `os.path.splitext(path)[1]`: the suffix of the path's final component
from its last dot, where leading dots of the component never start an
extension. -/
def splitextExt (base : List Char) : String :=
  let core := base.dropWhile (fun c => c == '.')
  if core.contains '.' then
    String.mk ('.' :: (core.reverse.takeWhile (fun c => !(c == '.'))).reverse)
  else ""

def basenameOf (path : String) : List Char :=
  (path.data.reverse.takeWhile (fun c => !(c == '/'))).reverse

def extOf (url : String) : String := splitextExt (basenameOf (pathOf url))

/-- The spider's `skip_extensions` set (non-content files). -/
def skip_extensions : List String :=
  [".doc", ".docx", ".jpg", ".jpeg", ".png", ".gif", ".webp", ".svg", ".mp4", ".mp3", ".zip"]

/-- `url.lower().endswith(".pdf")`. -/
def isPdfUrl (url : String) : Bool := strEndsWith (strLower url) ".pdf"

/-- `spider._load_sitemap`, given the stripped `<loc>` texts of the sitemap's
`<url>` entries in document order (XML reading by `ET.parse` plus the
`loc is None or not loc.text` guard is the input boundary).  Each entry is
skipped when its extension is a non-content one, else classified PDF/page by
`.pdf` suffix, and admitted only while its category's cap is unreached. -/
def sitemapStep (maxPages maxPdfs : Nat) (acc : Finset String × Finset String)
    (url : String) : Finset String × Finset String :=
  let lower_url := strLower url
  if skip_extensions.contains (extOf lower_url) then acc
  else if strEndsWith lower_url ".pdf" then
    if acc.2.card < maxPdfs then (acc.1, insert url acc.2) else acc
  else
    if acc.1.card < maxPages then (insert url acc.1, acc.2) else acc

def _load_sitemap (maxPages maxPdfs : Nat) (entries : List String) :
    Finset String × Finset String :=
  entries.foldl (sitemapStep maxPages maxPdfs) (∅, ∅)

/-! ### BFS crawl -/

structure BfsState where
  visited : Finset String
  page_urls : Finset String
  pdf_urls : Finset String
  queue : List String
deriving DecidableEq

/-- `url.split("#")[0]`. -/
def stripFragment (u : String) : String :=
  String.mk (u.data.takeWhile (fun c => !(c == '#')))

/-- `url.rstrip("/")`. -/
def rstripSlash (u : String) : String :=
  String.mk ((u.data.reverse.dropWhile (fun c => c == '/')).reverse)

/-- Hrefs skipped before resolution: `javascript:`, `mailto:`, `tel:`, `#`. -/
def isSkippedHref (href : String) : Bool :=
  strStartsWith href "javascript:" || strStartsWith href "mailto:" ||
    strStartsWith href "tel:" || strStartsWith href "#"

/-- The link-enqueueing loop of `_bfs_crawl`: drop non-content protocols,
then keep the (already `urljoin`-resolved) links whose base domain matches. -/
def admittedLinks (baseDomain : String) (links : List String) : List String :=
  (links.filter (fun href => !isSkippedHref href)).filter
    (fun l => getBaseDomain (netlocOf l) = baseDomain)

/-- One-victim-at-a-time BFS loop of `spider._bfs_crawl`.  `web url` is
`none` when the fetch fails or the response is not `text/html` (the location
is skipped), and `some links` when the page fetches as HTML with the given
resolved outbound links.  `fuel` bounds the iteration count (the Python loop
runs until the queue empties or both caps are reached). -/
def _bfs_loop (web : String → Option (List String)) (baseDomain : String)
    (maxPages maxPdfs : Nat) : Nat → BfsState → BfsState
  | 0, s => s
  | fuel + 1, s =>
    match s.queue with
    | [] => s
    | url0 :: rest =>
      if maxPages ≤ s.page_urls.card ∧ maxPdfs ≤ s.pdf_urls.card then s
      else
        let url := rstripSlash (stripFragment url0)
        if ¬ strStartsWith url "http" then
          _bfs_loop web baseDomain maxPages maxPdfs fuel { s with queue := rest }
        else if url ∈ s.visited then
          _bfs_loop web baseDomain maxPages maxPdfs fuel { s with queue := rest }
        else
          let s1 : BfsState :=
            { s with visited := insert url s.visited, queue := rest }
          if getBaseDomain (netlocOf url) ≠ baseDomain then
            _bfs_loop web baseDomain maxPages maxPdfs fuel s1
          else if isPdfUrl url then
            if s1.pdf_urls.card < maxPdfs then
              _bfs_loop web baseDomain maxPages maxPdfs fuel
                { s1 with pdf_urls := insert url s1.pdf_urls }
            else
              _bfs_loop web baseDomain maxPages maxPdfs fuel s1
          else if maxPages ≤ s1.page_urls.card then
            _bfs_loop web baseDomain maxPages maxPdfs fuel s1
          else
            match web url with
            | none => _bfs_loop web baseDomain maxPages maxPdfs fuel s1
            | some links =>
                _bfs_loop web baseDomain maxPages maxPdfs fuel
                  { s1 with
                    page_urls := insert url s1.page_urls,
                    queue := s1.queue ++ admittedLinks baseDomain links }

/-- `spider._bfs_crawl`: BFS from the seed, scoping to the seed's base
domain. -/
def _bfs_crawl (web : String → Option (List String)) (maxPages maxPdfs fuel : Nat)
    (seed : String) : Finset String × Finset String :=
  let baseDomain := getBaseDomain (netlocOf seed)
  let final := _bfs_loop web baseDomain maxPages maxPdfs fuel ⟨∅, ∅, ∅, [seed]⟩
  (final.page_urls, final.pdf_urls)

/-- `spider.crawl`: when a `sitemap.xml` file exists (`sitemap = some parsed`)
its parse outcome decides the result — `ET.parse` is unguarded, so a parse
error (`Except.error ()`) propagates and BFS is never attempted; only with no
sitemap file (`sitemap = none`) does the spider fall back to `_bfs_crawl`. -/
def crawl (sitemap : Option (Except Unit (List String)))
    (web : String → Option (List String)) (maxPages maxPdfs fuel : Nat)
    (seed : String) : Except Unit (Finset String × Finset String) :=
  match sitemap with
  | some (Except.error e) => Except.error e
  | some (Except.ok entries) => Except.ok (_load_sitemap maxPages maxPdfs entries)
  | none => Except.ok (_bfs_crawl web maxPages maxPdfs fuel seed)

/-! ### Discovery classification invariants -/

lemma sitemapStep_inv (mp md : Nat) (acc : Finset String × Finset String) (url : String)
    (h1 : ∀ u ∈ acc.1, isPdfUrl u = false) (h2 : ∀ u ∈ acc.2, isPdfUrl u = true) :
    (∀ u ∈ (sitemapStep mp md acc url).1, isPdfUrl u = false) ∧
    (∀ u ∈ (sitemapStep mp md acc url).2, isPdfUrl u = true) := by
  simp only [sitemapStep]
  split_ifs with hskip hpdf hcard hcard
  · exact ⟨h1, h2⟩
  · refine ⟨h1, ?_⟩
    intro u hu
    rcases Finset.mem_insert.mp hu with rfl | hmem
    · exact hpdf
    · exact h2 u hmem
  · exact ⟨h1, h2⟩
  · refine ⟨?_, h2⟩
    intro u hu
    rcases Finset.mem_insert.mp hu with rfl | hmem
    · exact Bool.not_eq_true _ ▸ (by simpa [isPdfUrl] using hpdf)
    · exact h1 u hmem
  · exact ⟨h1, h2⟩

lemma sitemap_foldl_inv (mp md : Nat) (entries : List String) :
    ∀ acc : Finset String × Finset String,
      (∀ u ∈ acc.1, isPdfUrl u = false) → (∀ u ∈ acc.2, isPdfUrl u = true) →
      (∀ u ∈ (entries.foldl (sitemapStep mp md) acc).1, isPdfUrl u = false) ∧
      (∀ u ∈ (entries.foldl (sitemapStep mp md) acc).2, isPdfUrl u = true) := by
  induction entries with
  | nil => exact fun acc h1 h2 => ⟨h1, h2⟩
  | cons e es ih =>
      intro acc h1 h2
      rw [List.foldl_cons]
      obtain ⟨g1, g2⟩ := sitemapStep_inv mp md acc e h1 h2
      exact ih _ g1 g2

lemma bfs_loop_inv (web : String → Option (List String)) (baseDomain : String)
    (mp md : Nat) (fuel : Nat) :
    ∀ s : BfsState,
      (∀ u ∈ s.page_urls, isPdfUrl u = false) → (∀ u ∈ s.pdf_urls, isPdfUrl u = true) →
      (∀ u ∈ (_bfs_loop web baseDomain mp md fuel s).page_urls, isPdfUrl u = false) ∧
      (∀ u ∈ (_bfs_loop web baseDomain mp md fuel s).pdf_urls, isPdfUrl u = true) := by
  induction fuel with
  | zero => exact fun s h1 h2 => ⟨h1, h2⟩
  | succ fuel ih =>
      intro s h1 h2
      cases hq : s.queue with
      | nil => simp only [_bfs_loop, hq]; exact ⟨h1, h2⟩
      | cons url0 rest =>
          simp only [_bfs_loop, hq]
          by_cases hcap : mp ≤ s.page_urls.card ∧ md ≤ s.pdf_urls.card
          · rw [if_pos hcap]
            exact ⟨h1, h2⟩
          · rw [if_neg hcap]
            by_cases hhttp : ¬ strStartsWith (rstripSlash (stripFragment url0)) "http" = true
            · rw [if_pos hhttp]
              exact ih _ h1 h2
            · rw [if_neg hhttp]
              by_cases hvis : rstripSlash (stripFragment url0) ∈ s.visited
              · rw [if_pos hvis]
                exact ih _ h1 h2
              · rw [if_neg hvis]
                by_cases hdom : getBaseDomain (netlocOf (rstripSlash (stripFragment url0)))
                    ≠ baseDomain
                · rw [if_pos hdom]
                  exact ih _ h1 h2
                · rw [if_neg hdom]
                  by_cases hpdf : isPdfUrl (rstripSlash (stripFragment url0)) = true
                  · rw [if_pos hpdf]
                    by_cases hclt : (Finset.card (BfsState.pdf_urls s)) < md
                    · rw [if_pos hclt]
                      refine ih _ h1 ?_
                      intro u hu
                      rcases Finset.mem_insert.mp hu with rfl | hmem
                      · exact hpdf
                      · exact h2 u hmem
                    · rw [if_neg hclt]
                      exact ih _ h1 h2
                  · rw [if_neg hpdf]
                    by_cases hcpg : mp ≤ Finset.card (BfsState.page_urls s)
                    · rw [if_pos hcpg]
                      exact ih _ h1 h2
                    · rw [if_neg hcpg]
                      cases hweb : web (rstripSlash (stripFragment url0)) with
                      | none => exact ih _ h1 h2
                      | some links =>
                          refine ih _ ?_ h2
                          intro u hu
                          rcases Finset.mem_insert.mp hu with rfl | hmem
                          · exact Bool.not_eq_true _ ▸ (by simpa using hpdf)
                          · exact h1 u hmem

/-- **C10.** Under both discovery strategies the two result sets are
disjoint: every URL admitted to the PDF set ends with `.pdf`
(case-insensitively), no URL admitted to the page set does, and hence no URL
appears in both sets. -/
theorem discovery_sets_disjoint (mp md : Nat) (entries : List String)
    (web : String → Option (List String)) (fuel : Nat) (seed : String) :
    ((∀ u ∈ (_load_sitemap mp md entries).2, isPdfUrl u = true) ∧
     (∀ u ∈ (_load_sitemap mp md entries).1, isPdfUrl u = false) ∧
     Disjoint (_load_sitemap mp md entries).1 (_load_sitemap mp md entries).2) ∧
    ((∀ u ∈ (_bfs_crawl web mp md fuel seed).2, isPdfUrl u = true) ∧
     (∀ u ∈ (_bfs_crawl web mp md fuel seed).1, isPdfUrl u = false) ∧
     Disjoint (_bfs_crawl web mp md fuel seed).1 (_bfs_crawl web mp md fuel seed).2) := by
  obtain ⟨hs1, hs2⟩ := sitemap_foldl_inv mp md entries (∅, ∅)
    (fun u hu => absurd hu (Finset.not_mem_empty u))
    (fun u hu => absurd hu (Finset.not_mem_empty u))
  obtain ⟨hb1, hb2⟩ := bfs_loop_inv web (getBaseDomain (netlocOf seed)) mp md fuel
    ⟨∅, ∅, ∅, [seed]⟩
    (fun u hu => absurd hu (Finset.not_mem_empty u))
    (fun u hu => absurd hu (Finset.not_mem_empty u))
  refine ⟨⟨hs2, hs1, ?_⟩, ⟨hb2, hb1, ?_⟩⟩
  · rw [Finset.disjoint_left]
    intro a hpage hpdf
    have hfa : isPdfUrl a = false := hs1 a hpage
    have hta : isPdfUrl a = true := hs2 a hpdf
    rw [hfa] at hta
    exact Bool.noConfusion hta
  · rw [Finset.disjoint_left]
    intro a hpage hpdf
    have hfa : isPdfUrl a = false := hb1 a hpage
    have hta : isPdfUrl a = true := hb2 a hpdf
    rw [hfa] at hta
    exact Bool.noConfusion hta

/-- Witness for `discovery_sets_disjoint` at a concrete sitemap and crawl. -/
theorem discovery_sets_disjoint_witness :
    isPdfUrl "https://a.com/d.pdf" = true ∧ isPdfUrl "https://a.com/p" = false :=
  ⟨(discovery_sets_disjoint 5 5 ["https://a.com/p", "https://a.com/d.pdf"]
      (fun _ => none) 1 "https://a.com").1.1 "https://a.com/d.pdf" (by decide),
   (discovery_sets_disjoint 5 5 ["https://a.com/p", "https://a.com/d.pdf"]
      (fun _ => none) 1 "https://a.com").1.2.1 "https://a.com/p" (by decide)⟩

/-! ### Sitemap cap enforcement -/

/-- An entry that survives the extension filter and is not a PDF: it goes to
the page branch of `sitemapStep`. -/
def isPageEntry (url : String) : Bool :=
  !(skip_extensions.contains (extOf (strLower url))) && !(strEndsWith (strLower url) ".pdf")

lemma sitemap_fold_pages (mp md : Nat) (entries : List String) :
    ∀ acc : Finset String × Finset String,
      (∀ e ∈ entries, isPageEntry e = true) → entries.Nodup →
      (∀ e ∈ entries, e ∉ acc.1) → acc.1.card ≤ mp →
      (entries.foldl (sitemapStep mp md) acc).1
          = acc.1 ∪ (entries.take (mp - acc.1.card)).toFinset ∧
      (entries.foldl (sitemapStep mp md) acc).1.card
          = min mp (acc.1.card + entries.length) ∧
      (entries.foldl (sitemapStep mp md) acc).2 = acc.2 := by
  induction entries with
  | nil =>
      intro acc _ _ _ hcard
      exact ⟨by simp, by simp [Nat.min_eq_right hcard], rfl⟩
  | cons e es ih =>
      intro acc hall hnd hdisj hcard
      have hpage := hall e (List.mem_cons_self _ _)
      have hskip : skip_extensions.contains (extOf (strLower e)) = false := by
        simp only [isPageEntry, Bool.and_eq_true, Bool.not_eq_true'] at hpage
        exact hpage.1
      have hpdf : strEndsWith (strLower e) ".pdf" = false := by
        simp only [isPageEntry, Bool.and_eq_true, Bool.not_eq_true'] at hpage
        exact hpage.2
      have hskip' : extOf (strLower e) ∉ skip_extensions := by simpa using hskip
      have hstep : sitemapStep mp md acc e
          = if acc.1.card < mp then (insert e acc.1, acc.2) else acc := by
        simp [sitemapStep, hskip', hpdf]
      rw [List.foldl_cons, hstep]
      by_cases hlt : acc.1.card < mp
      · rw [if_pos hlt]
        have hnotmem : e ∉ acc.1 := hdisj e (List.mem_cons_self _ _)
        have hcard1 : (insert e acc.1).card = acc.1.card + 1 :=
          Finset.card_insert_of_not_mem hnotmem
        obtain ⟨ih1, ih2, ih3⟩ := ih (insert e acc.1, acc.2)
          (fun x hx => hall x (List.mem_cons_of_mem _ hx))
          (List.nodup_cons.mp hnd).2
          (fun x hx hmem => by
            rcases Finset.mem_insert.mp hmem with rfl | hacc
            · exact (List.nodup_cons.mp hnd).1 hx
            · exact hdisj x (List.mem_cons_of_mem _ hx) hacc)
          (by rw [hcard1]; exact hlt)
        refine ⟨?_, ?_, ih3⟩
        · rw [ih1, hcard1]
          have htake : (e :: es).take (mp - acc.1.card)
              = e :: es.take (mp - acc.1.card - 1) := by
            obtain ⟨k, hk⟩ : ∃ k, mp - acc.1.card = k + 1 :=
              ⟨mp - acc.1.card - 1, by omega⟩
            rw [hk, List.take_succ_cons]
            simp
          rw [htake, List.toFinset_cons]
          have h2 : mp - (acc.1.card + 1) = mp - acc.1.card - 1 := by omega
          rw [h2, Finset.insert_union, Finset.union_insert]
        · rw [ih2, hcard1]
          simp only [List.length_cons]
          omega
      · rw [if_neg hlt]
        have hcardeq : acc.1.card = mp := le_antisymm hcard (not_lt.mp hlt)
        obtain ⟨ih1, ih2, ih3⟩ := ih acc
          (fun x hx => hall x (List.mem_cons_of_mem _ hx))
          (List.nodup_cons.mp hnd).2
          (fun x hx => hdisj x (List.mem_cons_of_mem _ hx))
          hcard
        refine ⟨?_, ?_, ih3⟩
        · rw [ih1, hcardeq]
          simp
        · rw [ih2, hcardeq]
          simp only [List.length_cons]
          omega

/-- **C6.** For a sitemap of pairwise-distinct page-type entries numbering at
least the configured page cap, the sitemap strategy returns a page set of
exactly `maxPages` entries, namely the first `maxPages` in source order;
every later entry is dropped (it appears nowhere in the result), and the PDF
set stays empty. -/
theorem sitemap_page_cap (mp md : Nat) (entries : List String)
    (hall : ∀ e ∈ entries, isPageEntry e = true)
    (hnd : entries.Nodup) (hlen : mp ≤ entries.length) :
    (_load_sitemap mp md entries).1 = (entries.take mp).toFinset ∧
    (_load_sitemap mp md entries).1.card = mp ∧
    (_load_sitemap mp md entries).2 = ∅ := by
  obtain ⟨h1, h2, h3⟩ := sitemap_fold_pages mp md entries (∅, ∅) hall hnd
    (fun e _ => Finset.not_mem_empty e) (Nat.zero_le mp)
  rw [_load_sitemap]
  refine ⟨?_, ?_, h3⟩
  · rw [h1]
    simp
  · rw [h2]
    simpa using Nat.min_eq_left (by simpa using hlen)

/-- Witness for `sitemap_page_cap`: three distinct page entries, cap two. -/
theorem sitemap_page_cap_witness :
    (_load_sitemap 2 10 ["https://a.com/1", "https://a.com/2", "https://a.com/3"]).1
        = (["https://a.com/1", "https://a.com/2", "https://a.com/3"].take 2).toFinset ∧
    (_load_sitemap 2 10 ["https://a.com/1", "https://a.com/2", "https://a.com/3"]).1.card = 2 ∧
    (_load_sitemap 2 10 ["https://a.com/1", "https://a.com/2", "https://a.com/3"]).2 = ∅ :=
  sitemap_page_cap 2 10 ["https://a.com/1", "https://a.com/2", "https://a.com/3"]
    (by decide) (by decide) (by decide)

/-- **C7.** Once a sitemap resource is present, a malformed (unparseable)
sitemap is fatal: the parse error propagates out of `crawl` unchanged, for
every link graph, cap configuration and seed — in particular the result never
comes from `_bfs_crawl`, so no BFS fallback is attempted. -/
theorem sitemap_parse_error_fatal (web : String → Option (List String))
    (mp md fuel : Nat) (seed : String) (e : Unit) :
    crawl (some (Except.error e)) web mp md fuel seed = Except.error e := rfl

/-! ### Domain scoping (C5) -/

/-- The link graph of the domain-scoping failing input: the seed page under
`example.org` links to `https://example.www.org/x`, a URL under the distinct
authority `example.www.org`; that page has no outbound links; everything else
is unreachable. -/
def webForeignAuthority : String → Option (List String) :=
  fun u =>
    if u = "https://example.org" then some ["https://example.www.org/x"]
    else if u = "https://example.www.org/x" then some []
    else none

/-- **C5, failing input.** `_get_base_domain` normalizes with
`replace("www.", "")`, which deletes *every* occurrence of `"www."`, not only
a leading label: the distinct authority `example.www.org` collapses to
`example.org`.  Hence BFS discovery seeded at `https://example.org/` admits
`https://example.www.org/x` into its page set, although its network authority
differs from the seed's even after normalizing away a leading `"www."` label —
contrary to the function's own docstring ("Strip 'www.' prefix").  The
intended `www.`-prefix equivalence also holds, as the first conjunct shows. -/
theorem bfs_admits_foreign_authority :
    getBaseDomain "www.example.org" = getBaseDomain "example.org" ∧
    getBaseDomain "example.www.org" = getBaseDomain "example.org" ∧
    "https://example.www.org/x"
      ∈ (_bfs_crawl webForeignAuthority 500 200 10 "https://example.org/").1 := by
  refine ⟨by decide, by decide, by decide⟩

/-! ## `processor/embedder.py` -/

/-- What `_call_embed` inspects of one `requests.post` response:
`status_code`, and `resp.json()["embedding"]` (held opaque at type `α`, the
vector being floating-point). -/
structure EmbedResponse (α : Type) where
  status_code : Nat
  embedding : α

/-- Outcome of `_call_embed`: the parsed embedding, a propagated
`requests.exceptions.RequestException` (the bare `raise` on the final
attempt), or the `RuntimeError` raised after the retry loop exhausts. -/
inductive EmbedResult (α : Type) where
  | ok (emb : α)
  | raised
  | runtimeError

/-- The `for attempt in range(retries)` loop of `embedder._call_embed`.
`resp i` is the outcome of the HTTP request on attempt `i`: `none` for a
transport-level `RequestException`, `some r` for a response.  A 546 or 5xx
status sleeps `2 ** attempt * 2` seconds and retries; any other non-success
(≥ 400) status raises through `raise_for_status` into the same handler, which
sleeps and retries unless this is the final attempt; a success returns the
embedding.  The list accumulates the sleeps performed, and `rem` counts the
loop iterations left (`retries - attempt`). -/
def _call_embed_loop {α : Type} (resp : Nat → Option (EmbedResponse α)) (retries : Nat) :
    Nat → Nat → List Nat → EmbedResult α × List Nat
  | 0, _, waits => (.runtimeError, waits)
  | rem + 1, attempt, waits =>
    match resp attempt with
    | some r =>
        if r.status_code = 546 ∨ 500 ≤ r.status_code then
          _call_embed_loop resp retries rem (attempt + 1) (waits ++ [2 ^ attempt * 2])
        else if 400 ≤ r.status_code then
          if attempt < retries - 1 then
            _call_embed_loop resp retries rem (attempt + 1) (waits ++ [2 ^ attempt * 2])
          else (.raised, waits)
        else (.ok r.embedding, waits)
    | none =>
        if attempt < retries - 1 then
          _call_embed_loop resp retries rem (attempt + 1) (waits ++ [2 ^ attempt * 2])
        else (.raised, waits)

/-- `embedder._call_embed(text, retries=3)`; the default retry ceiling is 3
attempts. -/
def _call_embed {α : Type} (resp : Nat → Option (EmbedResponse α)) (retries : Nat := 3) :
    EmbedResult α × List Nat :=
  _call_embed_loop resp retries retries 0 []

lemma call_embed_loop_all_server {α : Type} (resp : Nat → Option (EmbedResponse α))
    (retries : Nat)
    (hsrv : ∀ i, ∃ r, resp i = some r ∧ (r.status_code = 546 ∨ 500 ≤ r.status_code)) :
    ∀ (rem attempt : Nat) (waits : List Nat),
      _call_embed_loop resp retries rem attempt waits
        = (.runtimeError, waits ++ (List.range rem).map (fun i => 2 ^ (attempt + i) * 2)) := by
  intro rem
  induction rem with
  | zero => intro attempt waits; simp [_call_embed_loop]
  | succ rem ih =>
      intro attempt waits
      obtain ⟨r, hr, hc⟩ := hsrv attempt
      rw [show _call_embed_loop resp retries (rem + 1) attempt waits
            = match resp attempt with
              | some r =>
                  if r.status_code = 546 ∨ 500 ≤ r.status_code then
                    _call_embed_loop resp retries rem (attempt + 1) (waits ++ [2 ^ attempt * 2])
                  else if 400 ≤ r.status_code then
                    if attempt < retries - 1 then
                      _call_embed_loop resp retries rem (attempt + 1) (waits ++ [2 ^ attempt * 2])
                    else (.raised, waits)
                  else (.ok r.embedding, waits)
              | none =>
                  if attempt < retries - 1 then
                    _call_embed_loop resp retries rem (attempt + 1) (waits ++ [2 ^ attempt * 2])
                  else (.raised, waits) from rfl]
      rw [hr]
      simp only [if_pos hc]
      rw [ih (attempt + 1) (waits ++ [2 ^ attempt * 2])]
      have hmap : (List.range (rem + 1)).map (fun i => 2 ^ (attempt + i) * 2)
          = 2 ^ attempt * 2 :: (List.range rem).map (fun i => 2 ^ (attempt + 1 + i) * 2) := by
        rw [List.range_succ_eq_map, List.map_cons, List.map_map]
        refine congrArg₂ _ (by simp) ?_
        apply List.map_congr_left
        intro i _
        show 2 ^ (attempt + (i + 1)) * 2 = 2 ^ (attempt + 1 + i) * 2
        congr 2
        omega
      rw [hmap]
      simp

/-- **C8.** When every attempt yields a server-side transient error (status
546 or any 5xx), `_call_embed` retries with exponentially doubling backoff
(sleeps of 2, 4, 8 seconds) up to its fixed ceiling of 3 attempts, and after
the ceiling is exhausted raises a fatal `RuntimeError` to the caller rather
than returning any embedding. -/
theorem embed_server_error_retries_then_fatal {α : Type}
    (resp : Nat → Option (EmbedResponse α))
    (hsrv : ∀ i, ∃ r, resp i = some r ∧ (r.status_code = 546 ∨ 500 ≤ r.status_code)) :
    _call_embed resp 3 = (.runtimeError, [2, 4, 8]) := by
  rw [show _call_embed resp 3 = _call_embed_loop resp 3 3 0 [] from rfl,
    call_embed_loop_all_server resp 3 hsrv 3 0 []]
  rfl

/-- Witness for `embed_server_error_retries_then_fatal`: every attempt
returns HTTP 546. -/
theorem embed_server_error_retries_then_fatal_witness :
    _call_embed (fun _ => some (⟨546, ()⟩ : EmbedResponse Unit)) 3
      = (.runtimeError, [2, 4, 8]) :=
  embed_server_error_retries_then_fatal (fun _ => some ⟨546, ()⟩)
    (fun _ => ⟨⟨546, ()⟩, rfl, Or.inl rfl⟩)

/-! ## `deduplicator.compute_hash`: SHA-256 of the UTF-8 bytes, hex digest

`hashlib.sha256(text.encode("utf-8")).hexdigest()`, implemented over `Nat`
with explicit reduction modulo `2 ^ 32` (FIPS 180-4). -/

def w32 (x : Nat) : Nat := x % 4294967296

def rotr32 (x n : Nat) : Nat := w32 ((x >>> n) ||| (x <<< (32 - n)))

def sha256K : List Nat :=
  [1116352408, 1899447441, 3049323471, 3921009573, 961987163,
   1508970993, 2453635748, 2870763221, 3624381080, 310598401,
   607225278, 1426881987, 1925078388, 2162078206, 2614888103,
   3248222580, 3835390401, 4022224774, 264347078, 604807628,
   770255983, 1249150122, 1555081692, 1996064986, 2554220882,
   2821834349, 2952996808, 3210313671, 3336571891, 3584528711,
   113926993, 338241895, 666307205, 773529912, 1294757372,
   1396182291, 1695183700, 1986661051, 2177026350, 2456956037,
   2730485921, 2820302411, 3259730800, 3345764771, 3516065817,
   3600352804, 4094571909, 275423344, 430227734, 506948616,
   659060556, 883997877, 958139571, 1322822218, 1537002063,
   1747873779, 1955562222, 2024104815, 2227730452, 2361852424,
   2428436474, 2756734187, 3204031479, 3329325298]

def sha256H0 : List Nat :=
  [1779033703, 3144134277, 1013904242, 2773480762,
   1359893119, 2600822924, 528734635, 1541459225]

def bigSigma0 (x : Nat) : Nat := rotr32 x 2 ^^^ rotr32 x 13 ^^^ rotr32 x 22

def bigSigma1 (x : Nat) : Nat := rotr32 x 6 ^^^ rotr32 x 11 ^^^ rotr32 x 25

def smallSigma0 (x : Nat) : Nat := rotr32 x 7 ^^^ rotr32 x 18 ^^^ (x >>> 3)

def smallSigma1 (x : Nat) : Nat := rotr32 x 17 ^^^ rotr32 x 19 ^^^ (x >>> 10)

def chF (x y z : Nat) : Nat := (x &&& y) ^^^ ((x ^^^ 4294967295) &&& z)

def majF (x y z : Nat) : Nat := (x &&& y) ^^^ (x &&& z) ^^^ (y &&& z)

/-- Extend the 16 block words to the 64-word message schedule. -/
def extendSchedule (w : Array Nat) : Array Nat :=
  (List.range 48).foldl
    (fun w _ =>
      let t := w.size
      w.push (w32 (smallSigma1 (w.getD (t - 2) 0) + w.getD (t - 7) 0
        + smallSigma0 (w.getD (t - 15) 0) + w.getD (t - 16) 0)))
    w

/-- One-block compression of the running hash (8 words). -/
def sha256Compress (h : List Nat) (block16 : List Nat) : List Nat :=
  let w := extendSchedule block16.toArray
  let fin := (List.range 64).foldl
    (fun (st : Nat × Nat × Nat × Nat × Nat × Nat × Nat × Nat) (t : Nat) =>
      match st with
      | (a, b, c, d, e, f, g, hh) =>
          let t1 := w32 (hh + bigSigma1 e + chF e f g + sha256K.getD t 0 + w.getD t 0)
          let t2 := w32 (bigSigma0 a + majF a b c)
          (w32 (t1 + t2), a, b, c, w32 (d + t1), e, f, g))
    (h.getD 0 0, h.getD 1 0, h.getD 2 0, h.getD 3 0,
     h.getD 4 0, h.getD 5 0, h.getD 6 0, h.getD 7 0)
  match fin with
  | (a, b, c, d, e, f, g, hh) =>
      [w32 (h.getD 0 0 + a), w32 (h.getD 1 0 + b), w32 (h.getD 2 0 + c),
       w32 (h.getD 3 0 + d), w32 (h.getD 4 0 + e), w32 (h.getD 5 0 + f),
       w32 (h.getD 6 0 + g), w32 (h.getD 7 0 + hh)]

def beBytes : Nat → Nat → List Nat
  | 0, _ => []
  | k + 1, v => (v >>> (8 * k)) % 256 :: beBytes k v

/-- Append `0x80`, zeros to 56 mod 64 bytes, then the 64-bit big-endian bit
length. -/
def sha256Pad (msg : List Nat) : List Nat :=
  msg ++ 0x80 :: (List.replicate ((119 - msg.length % 64) % 64) 0
    ++ beBytes 8 (msg.length * 8))

def blockWords : List Nat → List Nat
  | a :: b :: c :: d :: rest => (((a * 256 + b) * 256 + c) * 256 + d) :: blockWords rest
  | _ => []

def splitBlocksAux : Nat → List Nat → List (List Nat)
  | 0, _ => []
  | _ + 1, [] => []
  | fuel + 1, l => l.take 64 :: splitBlocksAux fuel (l.drop 64)

def sha256Words (msg : List Nat) : List Nat :=
  let padded := sha256Pad msg
  (splitBlocksAux padded.length padded).foldl
    (fun h block => sha256Compress h (blockWords block)) sha256H0

def hexChar (n : Nat) : Char := if n < 10 then Char.ofNat (48 + n) else Char.ofNat (87 + n)

def wordHex (w : Nat) : List Char :=
  [hexChar ((w >>> 28) % 16), hexChar ((w >>> 24) % 16), hexChar ((w >>> 20) % 16),
   hexChar ((w >>> 16) % 16), hexChar ((w >>> 12) % 16), hexChar ((w >>> 8) % 16),
   hexChar ((w >>> 4) % 16), hexChar (w % 16)]

def sha256HexOfBytes (msg : List Nat) : String :=
  String.mk ((sha256Words msg).foldr (fun w acc => wordHex w ++ acc) [])

/-- `text.encode("utf-8")`. -/
def utf8Bytes (s : String) : List Nat := s.toUTF8.toList.map (fun b => b.toNat)

/-- `deduplicator.compute_hash`:
`hashlib.sha256(text.encode("utf-8")).hexdigest()`. -/
def compute_hash (text : String) : String := sha256HexOfBytes (utf8Bytes text)

/-- A chunk dict as produced by `chunker.chunk_document`, before
`compute_hashes_for_chunks` decorates it. -/
structure Chunk where
  url : String
  title : String
  kind : String
  chunk_index : Nat
  content : String
deriving DecidableEq, Repr

/-- `deduplicator.compute_hashes_for_chunks`: adds `content_hash` to every
chunk in place and returns the (same) list. -/
def compute_hashes_for_chunks (chunks : List Chunk) : List HChunk :=
  chunks.map (fun c => ⟨c.url, c.title, c.kind, c.chunk_index, c.content,
    compute_hash c.content⟩)

/-- Forget the added field, recovering the pre-hash chunk. -/
def forgetHash (c : HChunk) : Chunk := ⟨c.url, c.title, c.kind, c.chunk_index, c.content⟩

/-- **C9.** `compute_hashes_for_chunks` returns the list it was given —
same length, same order, every field `url, title, type, chunk_index, content`
of every chunk unchanged (first conjunct: forgetting the added field gives
back exactly the input list) — with exactly the one field `content_hash`
added, holding the SHA-256 hex digest of that chunk's `content` (second
conjunct). -/
theorem compute_hashes_frame (chunks : List Chunk) :
    (compute_hashes_for_chunks chunks).map forgetHash = chunks ∧
    (compute_hashes_for_chunks chunks).map (fun c => c.content_hash)
      = chunks.map (fun c => compute_hash c.content) := by
  constructor
  · rw [compute_hashes_for_chunks, List.map_map]
    exact List.map_id chunks
  · rw [compute_hashes_for_chunks, List.map_map]
    rfl
